import Mathlib

/-!
Shallow embedding of the zero-copy string splitter from
src/Jon Gjengset/Crust of Rust/Lifetime Annotations/Code/v1.rs.

A Rust string slice is always valid UTF-8, so we represent it as the
list of its Unicode scalar values (`List Char`); byte offsets are
recovered from the UTF-8 size of each scalar (`Char.utf8Size`, which
agrees with Rust `char::len_utf8`).  Byte-offset slicing of a slice
panics in Rust when the offset is out of range or falls inside a
multi-byte encoding; the slicing functions below return `none` exactly
in those cases, and `StrSplit.next` propagates that `none` as the
panic outcome.  Byte-level substring search of a valid UTF-8 needle in
a valid UTF-8 haystack can only ever match at scalar boundaries
(UTF-8 is self-synchronizing), hence `strFind` below, which scans by
scalar, computes exactly the byte offset that Rust `str::find`
returns.
-/

/-- Total UTF-8 byte length of a slice, as Rust `str::len`. -/
def utf8Len (s : List Char) : Nat := (s.map Char.utf8Size).sum

/-- Byte-offset prefix `&s[..n]`: the scalars making up the first `n`
bytes, or `none` (panic) when `n` overruns the slice or is not a
scalar boundary. -/
def takeBytes : List Char → Nat → Option (List Char)
  | _, 0 => some []
  | [], _ + 1 => none
  | c :: cs, n + 1 =>
    if c.utf8Size ≤ n + 1 then (takeBytes cs (n + 1 - c.utf8Size)).map (c :: ·)
    else none

/-- Byte-offset suffix `&s[n..]`: the scalars after the first `n`
bytes, or `none` (panic) when `n` overruns the slice or is not a
scalar boundary. -/
def dropBytes : List Char → Nat → Option (List Char)
  | s, 0 => some s
  | [], _ + 1 => none
  | c :: cs, n + 1 =>
    if c.utf8Size ≤ n + 1 then dropBytes cs (n + 1 - c.utf8Size)
    else none

/-- The subslice `&s[ds..de]`, as suffix-then-prefix. -/
def sliceBytes (s : List Char) (ds de : Nat) : Option (List Char) :=
  (dropBytes s ds).bind (fun t => takeBytes t (de - ds))

/-- Rust `s.find(pat)` for a string pattern: byte offset of the first
occurrence of `pat` in `s`, scanning scalar by scalar. -/
def strFind (s pat : List Char) : Option Nat :=
  if pat.isPrefixOf s then some 0
  else
    match s with
    | [] => none
    | c :: cs => (strFind cs pat).map (fun n => n + c.utf8Size)

/-- Rust `s.char_indices()` with a starting byte offset. -/
def charIndicesAux : Nat → List Char → List (Nat × Char)
  | _, [] => []
  | i, c :: cs => (i, c) :: charIndicesAux (i + c.utf8Size) cs

/-- Rust `s.char_indices()`: each scalar of `s` paired with its byte
offset. -/
def charIndices (s : List Char) : List (Nat × Char) := charIndicesAux 0 s

/-- `pub struct StrSplit` with its `remainder` option and `delimiter`. -/
structure StrSplit (D : Type) where
  remainder : Option (List Char)
  delimiter : D
deriving DecidableEq

/-- `pub trait Delimiter` with its single method `find_next`. -/
class Delimiter (D : Type) where
  find_next : D → List Char → Option (Nat × Nat)

/-- `StrSplit::new`: the remainder starts as the whole haystack. -/
def StrSplit.new {D : Type} (haystack : List Char) (delimiter : D) : StrSplit D :=
  { remainder := some haystack, delimiter := delimiter }

/-- `Iterator::next` for `StrSplit`.  The outer `Option` is the panic
outcome of the two byte-offset slicings; the inner `Option` is the
iterator item option returned by `next`. -/
def StrSplit.next {D : Type} [Delimiter D] (self : StrSplit D) :
    Option (Option (List Char) × StrSplit D) :=
  match self.remainder with
  | none => some (none, self)
  | some remainder =>
    match Delimiter.find_next self.delimiter remainder with
    | some (delim_start, delim_end) =>
      match takeBytes remainder delim_start, dropBytes remainder delim_end with
      | some until_delimiter, some rest =>
        some (some until_delimiter, { self with remainder := some rest })
      | _, _ => none
    | none => some (some remainder, { self with remainder := none })

/-- `impl Delimiter for &str`:
`s.find(self).map(|start| (start, start + self.len()))`. -/
instance strDelimiter : Delimiter (List Char) where
  find_next self s := (strFind s self).map (fun start => (start, start + utf8Len self))

/-- `impl Delimiter for char`:
`s.char_indices().find(|(_, c)| c == self).map(|(start, _)| (start, start + self.len_utf8()))`. -/
instance charDelimiter : Delimiter Char where
  find_next self s :=
    ((charIndices s).find? (fun p => p.2 == self)).map
      (fun p => (p.1, p.1 + self.utf8Size))

/-- `pub fn until_char`: first item of a fresh splitter; `none` models
both a panic inside `next` and the `.expect` firing on a missing item. -/
def until_char (s : List Char) (c : Char) : Option (List Char) :=
  match (StrSplit.new s c).next with
  | none => none
  | some (item, _) => item

/-- Apply `next` `k` times, keeping only the final state; `none` once
any call panics. -/
def nextSteps {D : Type} [Delimiter D] : StrSplit D → Nat → Option (StrSplit D)
  | sp, 0 => some sp
  | sp, k + 1 =>
    match sp.next with
    | none => none
    | some r => nextSteps r.2 k

/-- Drive the iterator with `fuel` calls to `next`, collecting every
yielded item until `next` returns no item; `none` when the fuel runs
out or a call panics. -/
def collectItems {D : Type} [Delimiter D] : Nat → StrSplit D → Option (List (List Char))
  | 0, _ => none
  | fuel + 1, sp =>
    match sp.next with
    | none => none
    | some (none, _) => some []
    | some (some item, sp2) => (collectItems fuel sp2).map (item :: ·)

/-- Concatenate items with one separator inserted between consecutive
items. -/
def interleave : List (List Char) → List (List Char) → List Char
  | [], _ => []
  | x :: _, [] => x
  | x :: xs, s :: ss => x ++ s ++ interleave xs ss

/-- A complete run of the splitter on view `v`, recording both the
yielded items and, for each step where the matcher found a delimiter
occurrence at `(ds, de)`, the matched delimiter text `&v[ds..de]`. -/
inductive RunSeps {D : Type} [Delimiter D] (d : D) :
    List Char → List (List Char) → List (List Char) → Prop
  | last (v : List Char) :
      Delimiter.find_next d v = none → RunSeps d v [v] []
  | step (v : List Char) (ds de : Nat) (item sep rest : List Char)
      (items seps : List (List Char)) :
      Delimiter.find_next d v = some (ds, de) →
      takeBytes v ds = some item →
      sliceBytes v ds de = some sep →
      dropBytes v de = some rest →
      RunSeps d rest items seps →
      RunSeps d v (item :: items) (sep :: seps)

/-- `pat` occurs in `s` at byte offset `n`. -/
def occursAt (pat s : List Char) (n : Nat) : Prop :=
  ∃ p q, s = p ++ pat ++ q ∧ utf8Len p = n

theorem utf8Len_nil : utf8Len [] = 0 := rfl

theorem utf8Len_cons (c : Char) (s : List Char) :
    utf8Len (c :: s) = c.utf8Size + utf8Len s := by
  simp [utf8Len]

theorem utf8Len_append (p q : List Char) :
    utf8Len (p ++ q) = utf8Len p + utf8Len q := by
  simp [utf8Len]

theorem utf8Len_eq_zero {p : List Char} (h : utf8Len p = 0) : p = [] := by
  cases p with
  | nil => rfl
  | cons c cs =>
    rw [utf8Len_cons] at h
    have := c.utf8Size_pos
    omega

theorem takeBytes_zero (s : List Char) : takeBytes s 0 = some [] := by
  cases s <;> rfl

theorem dropBytes_zero (s : List Char) : dropBytes s 0 = some s := by
  cases s <;> rfl

theorem takeBytes_cons_of_le (c : Char) (cs : List Char) (n : Nat)
    (h1 : 1 ≤ n) (h2 : c.utf8Size ≤ n) :
    takeBytes (c :: cs) n = (takeBytes cs (n - c.utf8Size)).map (c :: ·) := by
  cases n with
  | zero => omega
  | succ m => simp [takeBytes, h2]

theorem dropBytes_cons_of_le (c : Char) (cs : List Char) (n : Nat)
    (h1 : 1 ≤ n) (h2 : c.utf8Size ≤ n) :
    dropBytes (c :: cs) n = dropBytes cs (n - c.utf8Size) := by
  cases n with
  | zero => omega
  | succ m => simp [dropBytes, h2]

theorem takeBytes_append (p q : List Char) :
    takeBytes (p ++ q) (utf8Len p) = some p := by
  induction p with
  | nil => simp [takeBytes, utf8Len_nil]
  | cons c p ih =>
    have hc := c.utf8Size_pos
    rw [List.cons_append, utf8Len_cons,
      takeBytes_cons_of_le c (p ++ q) (c.utf8Size + utf8Len p) (by omega) (by omega)]
    rw [Nat.add_sub_cancel_left, ih]
    rfl

theorem dropBytes_append (p q : List Char) :
    dropBytes (p ++ q) (utf8Len p) = some q := by
  induction p with
  | nil => simp [dropBytes, utf8Len_nil]
  | cons c p ih =>
    have hc := c.utf8Size_pos
    rw [List.cons_append, utf8Len_cons,
      dropBytes_cons_of_le c (p ++ q) (c.utf8Size + utf8Len p) (by omega) (by omega)]
    rw [Nat.add_sub_cancel_left, ih]

theorem takeBytes_some : ∀ (s : List Char) (n : Nat) (p : List Char),
    takeBytes s n = some p → ∃ q, s = p ++ q ∧ utf8Len p = n := by
  intro s
  induction s with
  | nil =>
    intro n p h
    cases n with
    | zero =>
      rw [takeBytes_zero] at h
      obtain rfl : p = [] := (Option.some.inj h).symm
      exact ⟨[], rfl, utf8Len_nil⟩
    | succ m => simp [takeBytes] at h
  | cons c cs ih =>
    intro n p h
    cases n with
    | zero =>
      rw [takeBytes_zero] at h
      obtain rfl : p = [] := (Option.some.inj h).symm
      exact ⟨c :: cs, rfl, utf8Len_nil⟩
    | succ m =>
      by_cases hc : c.utf8Size ≤ m + 1
      · rw [takeBytes_cons_of_le c cs (m + 1) (by omega) hc] at h
        rcases Option.map_eq_some'.mp h with ⟨p2, hp2, hpp⟩
        rcases ih (m + 1 - c.utf8Size) p2 hp2 with ⟨q, hq, hlen⟩
        exact ⟨q, by rw [← hpp, hq, List.cons_append],
          by rw [← hpp, utf8Len_cons, hlen]; omega⟩
      · simp [takeBytes, hc] at h

theorem dropBytes_some : ∀ (s : List Char) (n : Nat) (q : List Char),
    dropBytes s n = some q → ∃ p, s = p ++ q ∧ utf8Len p = n := by
  intro s
  induction s with
  | nil =>
    intro n q h
    cases n with
    | zero =>
      rw [dropBytes_zero] at h
      obtain rfl : q = [] := (Option.some.inj h).symm
      exact ⟨[], rfl, utf8Len_nil⟩
    | succ m => simp [dropBytes] at h
  | cons c cs ih =>
    intro n q h
    cases n with
    | zero =>
      rw [dropBytes_zero] at h
      obtain rfl : q = c :: cs := (Option.some.inj h).symm
      exact ⟨[], rfl, utf8Len_nil⟩
    | succ m =>
      by_cases hc : c.utf8Size ≤ m + 1
      · rw [dropBytes_cons_of_le c cs (m + 1) (by omega) hc] at h
        rcases ih (m + 1 - c.utf8Size) q h with ⟨p, hp, hlen⟩
        exact ⟨c :: p, by rw [hp, List.cons_append],
          by rw [utf8Len_cons, hlen]; omega⟩
      · simp [dropBytes, hc] at h

theorem dropBytes_utf8Len {s : List Char} {n : Nat} {q : List Char}
    (h : dropBytes s n = some q) : utf8Len s = n + utf8Len q := by
  rcases dropBytes_some s n q h with ⟨p, hp, hlen⟩
  rw [hp, utf8Len_append, hlen]

theorem occursAt_zero (pat s : List Char) : occursAt pat s 0 ↔ pat <+: s := by
  constructor
  · rintro ⟨p, q, heq, hlen⟩
    obtain rfl : p = [] := utf8Len_eq_zero hlen
    exact ⟨q, heq.symm⟩
  · rintro ⟨q, hq⟩
    exact ⟨[], q, by simp [← hq], utf8Len_nil⟩

theorem strFind_some : ∀ (s pat : List Char) (n : Nat), strFind s pat = some n →
    occursAt pat s n ∧ ∀ m, occursAt pat s m → n ≤ m := by
  intro s
  induction s with
  | nil =>
    intro pat n h
    by_cases hp : pat.isPrefixOf ([] : List Char)
    · rw [strFind.eq_def, if_pos hp] at h
      obtain rfl : n = 0 := (Option.some.inj h).symm
      refine ⟨(occursAt_zero pat []).mpr ?_, fun m _ => Nat.zero_le m⟩
      exact List.isPrefixOf_iff_prefix.mp hp
    · rw [strFind.eq_def, if_neg hp] at h
      simp at h
  | cons c cs ih =>
    intro pat n h
    by_cases hp : pat.isPrefixOf (c :: cs)
    · rw [strFind.eq_def, if_pos hp] at h
      obtain rfl : n = 0 := (Option.some.inj h).symm
      refine ⟨(occursAt_zero pat (c :: cs)).mpr ?_, fun m _ => Nat.zero_le m⟩
      exact List.isPrefixOf_iff_prefix.mp hp
    · rw [strFind.eq_def, if_neg hp] at h
      rcases Option.map_eq_some'.mp h with ⟨n2, hn2, rfl⟩
      rcases ih pat n2 hn2 with ⟨⟨p, q, heq, hlen⟩, hmin⟩
      constructor
      · exact ⟨c :: p, q, by simp [heq], by rw [utf8Len_cons, hlen]; omega⟩
      · rintro m ⟨p2, q2, heq2, hlen2⟩
        cases p2 with
        | nil =>
          exact absurd (List.isPrefixOf_iff_prefix.mpr ⟨q2, by simpa using heq2.symm⟩) hp
        | cons c2 p3 =>
          rw [List.cons_append, List.cons_append] at heq2
          injection heq2 with hc heq3
          subst hc
          have := hmin (utf8Len p3) ⟨p3, q2, heq3, rfl⟩
          rw [← hlen2, utf8Len_cons]
          omega

theorem strFind_none : ∀ (s pat : List Char), strFind s pat = none →
    ∀ m, ¬ occursAt pat s m := by
  intro s
  induction s with
  | nil =>
    intro pat h m hocc
    rcases hocc with ⟨p, q, heq, hlen⟩
    rcases List.append_eq_nil.mp heq.symm with ⟨h1, h2⟩
    rcases List.append_eq_nil.mp h1 with ⟨h3, h4⟩
    subst h4
    rw [strFind.eq_def, if_pos (by rfl : ([] : List Char).isPrefixOf [] = true)] at h
    simp at h
  | cons c cs ih =>
    intro pat h m hocc
    by_cases hp : pat.isPrefixOf (c :: cs)
    · rw [strFind.eq_def, if_pos hp] at h
      simp at h
    · rw [strFind.eq_def, if_neg hp] at h
      rcases hocc with ⟨p2, q2, heq2, hlen2⟩
      cases p2 with
      | nil =>
        exact absurd (List.isPrefixOf_iff_prefix.mpr ⟨q2, by simpa using heq2.symm⟩) hp
      | cons c2 p3 =>
        rw [List.cons_append, List.cons_append] at heq2
        injection heq2 with hc heq3
        have h2 : Option.map (fun n => n + c.utf8Size) (strFind cs pat) = none := h
        have hnone : strFind cs pat = none := by
          rcases h0 : strFind cs pat with _ | n2
          · rfl
          · rw [h0] at h2
            simp at h2
        exact ih pat hnone (utf8Len p3) ⟨p3, q2, heq3, rfl⟩

theorem dropBytes_append_ge (p q : List Char) (n : Nat) (h : utf8Len p ≤ n) :
    dropBytes (p ++ q) n = dropBytes q (n - utf8Len p) := by
  induction p generalizing n with
  | nil => simp [utf8Len_nil]
  | cons c p ih =>
    rw [utf8Len_cons] at h
    have hc := c.utf8Size_pos
    rw [List.cons_append, dropBytes_cons_of_le c (p ++ q) n (by omega) (by omega),
      ih (n - c.utf8Size) (by omega), utf8Len_cons]
    congr 1
    omega

theorem charFind_aux (c : Char) : ∀ (s : List Char) (i : Nat) (p : Nat × Char),
    ((charIndicesAux i s).find? (fun q => q.2 == c)) = some p →
    ∃ l r, s = l ++ c :: r ∧ c ∉ l ∧ p = (i + utf8Len l, c) := by
  intro s
  induction s with
  | nil => intro i p h; simp [charIndicesAux] at h
  | cons c0 cs ih =>
    intro i p h
    rw [charIndicesAux] at h
    by_cases hb : c0 = c
    · subst hb
      rw [List.find?_cons_of_pos _ (by simp)] at h
      obtain rfl : p = (i, c0) := (Option.some.inj h).symm
      exact ⟨[], cs, rfl, by simp, by simp [utf8Len_nil]⟩
    · rw [List.find?_cons_of_neg _ (by simpa using hb)] at h
      rcases ih (i + c0.utf8Size) p h with ⟨l, r, heq, hmem, hp⟩
      refine ⟨c0 :: l, r, by rw [heq, List.cons_append], ?_, ?_⟩
      · intro hmem2
        rcases List.mem_cons.mp hmem2 with h1 | h1
        · exact hb h1.symm
        · exact hmem h1
      · rw [hp, utf8Len_cons]
        congr 1
        omega

theorem charFindNext_some {c : Char} {s : List Char} {ds de : Nat}
    (h : Delimiter.find_next c s = some (ds, de)) :
    ∃ l r, s = l ++ c :: r ∧ c ∉ l ∧ ds = utf8Len l ∧ de = ds + c.utf8Size := by
  have h2 : ((charIndices s).find? (fun p => p.2 == c)).map
      (fun p => (p.1, p.1 + c.utf8Size)) = some (ds, de) := h
  rcases Option.map_eq_some'.mp h2 with ⟨p0, hfind, hpair⟩
  rcases charFind_aux c s 0 p0 hfind with ⟨l, r, heq, hmem, rfl⟩
  refine ⟨l, r, heq, hmem, ?_, ?_⟩
  · have : ds = 0 + utf8Len l := (Prod.mk.injEq _ _ _ _ ▸ hpair).1.symm
    omega
  · have h3 := (Prod.mk.injEq _ _ _ _ ▸ hpair).1
    have h4 := (Prod.mk.injEq _ _ _ _ ▸ hpair).2
    omega

theorem next_of_done {D : Type} [Delimiter D] (d : D) :
    (StrSplit.mk none d).next = some (none, StrSplit.mk none d) := rfl

theorem next_of_find_none {D : Type} [Delimiter D] {d : D} {v : List Char}
    (hf : Delimiter.find_next d v = none) :
    (StrSplit.mk (some v) d).next = some (some v, StrSplit.mk none d) := by
  simp [StrSplit.next, hf]

theorem next_of_find_some {D : Type} [Delimiter D] {d : D} {v item rest : List Char}
    {ds de : Nat} (hf : Delimiter.find_next d v = some (ds, de))
    (ht : takeBytes v ds = some item) (hd : dropBytes v de = some rest) :
    (StrSplit.mk (some v) d).next = some (some item, StrSplit.mk (some rest) d) := by
  simp [StrSplit.next, hf, ht, hd]

theorem char_next_total (sp : StrSplit Char) :
    ∃ r sp2, sp.next = some (r, sp2) := by
  obtain ⟨rem, c⟩ := sp
  cases rem with
  | none => exact ⟨none, StrSplit.mk none c, next_of_done c⟩
  | some v =>
    rcases hf : Delimiter.find_next c v with _ | ⟨ds, de⟩
    · exact ⟨some v, StrSplit.mk none c, next_of_find_none hf⟩
    · rcases charFindNext_some hf with ⟨l, r, heq, hmem, hds, hde⟩
      have ht : takeBytes v ds = some l := by
        rw [heq, hds]
        exact takeBytes_append l (c :: r)
      have hd : dropBytes v de = some r := by
        have heq2 : v = (l ++ [c]) ++ r := by rw [heq]; simp
        have hlen : utf8Len (l ++ [c]) = de := by
          rw [utf8Len_append, utf8Len_cons, utf8Len_nil, hde, hds]
          omega
        rw [heq2, ← hlen]
        exact dropBytes_append (l ++ [c]) r
      exact ⟨some l, StrSplit.mk (some r) c, next_of_find_some hf ht hd⟩

theorem fresh_next_isSome {D : Type} [Delimiter D] {v : List Char} {d : D}
    {r : Option (List Char)} {sp2 : StrSplit D}
    (h : (StrSplit.mk (some v) d).next = some (r, sp2)) : r.isSome := by
  rcases hf : Delimiter.find_next d v with _ | ⟨ds, de⟩
  · rw [next_of_find_none hf] at h
    obtain rfl : r = some v := ((Prod.mk.injEq _ _ _ _ ▸ Option.some.inj h).1).symm
    rfl
  · rcases ht : takeBytes v ds with _ | item
    · simp [StrSplit.next, hf, ht] at h
    · rcases hd : dropBytes v de with _ | rest
      · simp [StrSplit.next, hf, ht, hd] at h
      · rw [next_of_find_some hf ht hd] at h
        obtain rfl : r = some item := ((Prod.mk.injEq _ _ _ _ ▸ Option.some.inj h).1).symm
        rfl

theorem next_delimiter {D : Type} [Delimiter D] {sp sp2 : StrSplit D}
    {r : Option (List Char)} (h : sp.next = some (r, sp2)) :
    sp2.delimiter = sp.delimiter := by
  obtain ⟨rem, d⟩ := sp
  cases rem with
  | none =>
    rw [next_of_done d] at h
    obtain rfl : sp2 = StrSplit.mk none d := ((Prod.mk.injEq _ _ _ _ ▸ Option.some.inj h).2).symm
    rfl
  | some v =>
    rcases hf : Delimiter.find_next d v with _ | ⟨ds, de⟩
    · rw [next_of_find_none hf] at h
      obtain rfl : sp2 = StrSplit.mk none d := ((Prod.mk.injEq _ _ _ _ ▸ Option.some.inj h).2).symm
      rfl
    · rcases ht : takeBytes v ds with _ | item
      · simp [StrSplit.next, hf, ht] at h
      · rcases hd : dropBytes v de with _ | rest
        · simp [StrSplit.next, hf, ht, hd] at h
        · rw [next_of_find_some hf ht hd] at h
          obtain rfl : sp2 = StrSplit.mk (some rest) d :=
            ((Prod.mk.injEq _ _ _ _ ▸ Option.some.inj h).2).symm
          rfl

theorem next_shrinks {D : Type} [Delimiter D] {sp sp2 : StrSplit D} {r : Option (List Char)}
    (hpos : ∀ v ds de, Delimiter.find_next sp.delimiter v = some (ds, de) → 0 < de)
    (h : sp.next = some (r, sp2)) :
    sp2.remainder = none ∨
      ∃ v v2, sp.remainder = some v ∧ sp2.remainder = some v2 ∧ utf8Len v2 < utf8Len v := by
  obtain ⟨rem, d⟩ := sp
  cases rem with
  | none =>
    left
    rw [next_of_done d] at h
    obtain rfl : sp2 = StrSplit.mk none d := ((Prod.mk.injEq _ _ _ _ ▸ Option.some.inj h).2).symm
    rfl
  | some v =>
    rcases hf : Delimiter.find_next d v with _ | ⟨ds, de⟩
    · left
      rw [next_of_find_none hf] at h
      obtain rfl : sp2 = StrSplit.mk none d := ((Prod.mk.injEq _ _ _ _ ▸ Option.some.inj h).2).symm
      rfl
    · rcases ht : takeBytes v ds with _ | item
      · simp [StrSplit.next, hf, ht] at h
      · rcases hd : dropBytes v de with _ | rest
        · simp [StrSplit.next, hf, ht, hd] at h
        · rw [next_of_find_some hf ht hd] at h
          obtain rfl : sp2 = StrSplit.mk (some rest) d :=
            ((Prod.mk.injEq _ _ _ _ ▸ Option.some.inj h).2).symm
          right
          refine ⟨v, rest, rfl, rfl, ?_⟩
          have h1 := dropBytes_utf8Len hd
          have h2 := hpos v ds de hf
          omega

theorem reaches_end {D : Type} [Delimiter D] :
    ∀ (n : Nat) (sp : StrSplit D),
      (∀ v ds de, Delimiter.find_next sp.delimiter v = some (ds, de) → 0 < de) →
      (∀ v, sp.remainder = some v → utf8Len v ≤ n) →
      ∃ k, nextSteps sp k = none ∨
        ∃ sp2, nextSteps sp k = some sp2 ∧ sp2.remainder = none := by
  intro n
  induction n with
  | zero =>
    intro sp hpos hbound
    rcases hrem : sp.remainder with _ | v
    · exact ⟨0, Or.inr ⟨sp, rfl, hrem⟩⟩
    · rcases hn : sp.next with _ | ⟨r, sp2⟩
      · exact ⟨1, Or.inl (by simp [nextSteps, hn])⟩
      · rcases next_shrinks hpos hn with hdone | ⟨v1, v2, hv1, hv2, hlt⟩
        · exact ⟨1, Or.inr ⟨sp2, by simp [nextSteps, hn], hdone⟩⟩
        · have := hbound v1 hv1
          omega
  | succ n ih =>
    intro sp hpos hbound
    rcases hrem : sp.remainder with _ | v
    · exact ⟨0, Or.inr ⟨sp, rfl, hrem⟩⟩
    · rcases hn : sp.next with _ | ⟨r, sp2⟩
      · exact ⟨1, Or.inl (by simp [nextSteps, hn])⟩
      · rcases next_shrinks hpos hn with hdone | ⟨v1, v2, hv1, hv2, hlt⟩
        · exact ⟨1, Or.inr ⟨sp2, by simp [nextSteps, hn], hdone⟩⟩
        · have hpos2 : ∀ w ds de, Delimiter.find_next sp2.delimiter w = some (ds, de) → 0 < de := by
            rw [next_delimiter hn]
            exact hpos
          have hbound2 : ∀ w, sp2.remainder = some w → utf8Len w ≤ n := by
            intro w hw
            obtain rfl : w = v2 := Option.some.inj (hv2 ▸ hw).symm
            have := hbound v1 hv1
            omega
          rcases ih sp2 hpos2 hbound2 with ⟨k, hk⟩
          refine ⟨k + 1, ?_⟩
          have hsteps : nextSteps sp (k + 1) = nextSteps sp2 k := by
            simp [nextSteps, hn]
          rw [hsteps]
          exact hk

theorem strDelim_pos (pat : List Char) (hpat : pat ≠ []) :
    ∀ v ds de, Delimiter.find_next pat v = some (ds, de) → 0 < de := by
  intro v ds de h
  have h2 : (strFind v pat).map (fun start => (start, start + utf8Len pat)) = some (ds, de) := h
  rcases Option.map_eq_some'.mp h2 with ⟨n, hn, hpair⟩
  have h4 : n + utf8Len pat = de := (Prod.mk.injEq _ _ _ _ ▸ hpair).2
  have hlen : utf8Len pat ≠ 0 := fun h0 => hpat (utf8Len_eq_zero h0)
  omega

theorem strDelim_ord (pat : List Char) :
    ∀ v ds de, Delimiter.find_next pat v = some (ds, de) → ds ≤ de := by
  intro v ds de h
  have h2 : (strFind v pat).map (fun start => (start, start + utf8Len pat)) = some (ds, de) := h
  rcases Option.map_eq_some'.mp h2 with ⟨n, hn, hpair⟩
  have h3 : n = ds := (Prod.mk.injEq _ _ _ _ ▸ hpair).1
  have h4 : n + utf8Len pat = de := (Prod.mk.injEq _ _ _ _ ▸ hpair).2
  omega

/-- Claim C1: for every splitter in state `Remaining(view)` and every
matcher, `next` asks the matcher for the next delimiter occurrence in
the view; when one is found at `(start, end)` whose endpoints are valid
subrange boundaries of the view, the call yields the subrange
`[0, start)`, the remaining view becomes `[end, view.length)`, and the
state stays `Remaining`; when none is found, the call yields the whole
view and the state transitions to `Done`. -/
theorem produce_next_step {D : Type} [Delimiter D] (d : D) (v item rest : List Char)
    (ds de : Nat) :
    (Delimiter.find_next d v = some (ds, de) → takeBytes v ds = some item →
      dropBytes v de = some rest →
      (StrSplit.mk (some v) d).next = some (some item, StrSplit.mk (some rest) d))
    ∧ (Delimiter.find_next d v = none →
      (StrSplit.mk (some v) d).next = some (some v, StrSplit.mk none d)) :=
  ⟨fun hf ht hd => next_of_find_some hf ht hd, fun hf => next_of_find_none hf⟩

/-- Witness for `produce_next_step` at the literal delimiter `"x"` on
`"axb"` (found branch) and `"ab"` (not-found branch). -/
theorem produce_next_step_witness :
    (StrSplit.mk (some "axb".toList) "x".toList).next
      = some (some "a".toList, StrSplit.mk (some "b".toList) "x".toList)
    ∧ (StrSplit.mk (some "ab".toList) "x".toList).next
      = some (some "ab".toList, StrSplit.mk none "x".toList) :=
  ⟨(produce_next_step "x".toList "axb".toList "a".toList "b".toList 1 2).1
      (by decide) (by decide) (by decide),
    (produce_next_step "x".toList "ab".toList "a".toList "b".toList 1 2).2 (by decide)⟩

/-- Claim C2: once the state is `Done` (the remainder option is
consumed), `next` keeps returning the end-of-sequence signal and the
state never changes: the transition to `Done` is one-way. -/
theorem done_is_permanent {D : Type} [Delimiter D] (sp : StrSplit D)
    (h : sp.remainder = none) :
    sp.next = some (none, sp) ∧ ∀ k, nextSteps sp k = some sp := by
  obtain ⟨rem, d⟩ := sp
  obtain rfl : rem = none := h
  refine ⟨next_of_done d, ?_⟩
  intro k
  induction k with
  | zero => rfl
  | succ k ih =>
    have hsteps : nextSteps (StrSplit.mk none d) (k + 1)
        = nextSteps (StrSplit.mk none d) k := by
      simp [nextSteps, next_of_done]
    rw [hsteps]
    exact ih

/-- Witness for `done_is_permanent` at a concrete `Done` splitter. -/
theorem done_is_permanent_witness :
    (StrSplit.mk none 'x').next = some (none, StrSplit.mk none 'x')
    ∧ nextSteps (StrSplit.mk none 'x') 3 = some (StrSplit.mk none 'x') :=
  ⟨(done_is_permanent (StrSplit.mk none 'x') rfl).1,
    (done_is_permanent (StrSplit.mk none 'x') rfl).2 3⟩

/-- Claim C3, counterexample: with the empty literal delimiter the
matched range is zero-width, so a call on remaining view `"a"` yields
an item while the remaining view stays `"a"` unchanged — the call
neither strictly shrinks the view nor transitions to `Done`, refuting
the claim for arbitrary matchers. -/
theorem split_shrink_cex :
    (StrSplit.mk (some "a".toList) ([] : List Char)).next
      = some (some [], StrSplit.mk (some "a".toList) ([] : List Char))
    ∧ (StrSplit.mk (some "a".toList) ([] : List Char)).remainder ≠ none := by
  exact ⟨by decide, by decide⟩

/-- Claim C3, amended: for every matcher whose found ranges always have
a positive end offset (in particular whenever the matched range is
non-empty in length), every call to `next` either panics, transitions
the state to `Done`, or strictly shrinks the byte length of the
remaining view; consequently after finitely many calls the iteration
has ended (panicked or reached `Done`). -/
theorem split_finite {D : Type} [Delimiter D] (sp : StrSplit D)
    (hpos : ∀ v ds de, Delimiter.find_next sp.delimiter v = some (ds, de) → 0 < de) :
    (∀ r sp2, sp.next = some (r, sp2) →
      sp2.remainder = none ∨
        ∃ v v2, sp.remainder = some v ∧ sp2.remainder = some v2 ∧ utf8Len v2 < utf8Len v)
    ∧ ∃ k, nextSteps sp k = none ∨
        ∃ sp2, nextSteps sp k = some sp2 ∧ sp2.remainder = none := by
  constructor
  · intro r sp2 h
    exact next_shrinks hpos h
  · rcases hrem : sp.remainder with _ | v
    · exact reaches_end 0 sp hpos (fun v hv => by rw [hrem] at hv; cases hv)
    · refine reaches_end (utf8Len v) sp hpos ?_
      intro v2 hv2
      obtain rfl : v2 = v := Option.some.inj (hrem ▸ hv2).symm
      exact Nat.le_refl _

/-- Witness for `split_finite` at the literal delimiter `"x"` on `"a"`. -/
theorem split_finite_witness :
    ∃ k, nextSteps (StrSplit.mk (some "a".toList) "x".toList) k = none ∨
      ∃ sp2, nextSteps (StrSplit.mk (some "a".toList) "x".toList) k = some sp2 ∧
        sp2.remainder = none :=
  (split_finite (StrSplit.mk (some "a".toList) "x".toList)
    (strDelim_pos "x".toList (by decide))).2

/-- Claim C10: the literal matcher for the empty delimiter returns the
zero-width match `(0, 0)` on every text, so one call to `next` yields
the empty string while the remaining view stays unchanged, and the
splitter never transitions to `Done`. -/
theorem empty_delimiter_stalls (v : List Char) :
    Delimiter.find_next ([] : List Char) v = some (0, 0)
    ∧ (StrSplit.new v ([] : List Char)).next
      = some (some [], StrSplit.new v ([] : List Char))
    ∧ ∀ k, nextSteps (StrSplit.new v ([] : List Char)) k
      = some (StrSplit.new v ([] : List Char)) := by
  have hfind : strFind v [] = some 0 := by
    rw [strFind.eq_def, if_pos (by cases v <;> rfl : ([] : List Char).isPrefixOf v = true)]
  have hf : Delimiter.find_next ([] : List Char) v = some (0, 0) := by
    show (strFind v []).map (fun start => (start, start + utf8Len [])) = some (0, 0)
    rw [hfind]
    rfl
  have hnext : (StrSplit.new v ([] : List Char)).next
      = some (some [], StrSplit.new v ([] : List Char)) :=
    next_of_find_some hf (takeBytes_zero v) (dropBytes_zero v)
  refine ⟨hf, hnext, ?_⟩
  intro k
  induction k with
  | zero => rfl
  | succ k ih =>
    have hsteps : nextSteps (StrSplit.new v ([] : List Char)) (k + 1)
        = nextSteps (StrSplit.new v ([] : List Char)) k := by
      simp [nextSteps, hnext]
    rw [hsteps]
    exact ih

/-- Claim C4: on a freshly constructed splitter the first call to
`next` never returns the absence signal (whenever it returns at all it
carries an item), and consequently `until_char` never signals absence:
its fatal `.expect` assertion is unreachable. -/
theorem first_call_yields {D : Type} [Delimiter D] (v : List Char) (d : D) :
    (∀ r sp2, (StrSplit.new v d).next = some (r, sp2) → r.isSome)
    ∧ ∀ (s : List Char) (c : Char), (until_char s c).isSome := by
  constructor
  · intro r sp2 h
    exact fresh_next_isSome (h : (StrSplit.mk (some v) d).next = some (r, sp2))
  · intro s c
    rcases char_next_total (StrSplit.new s c) with ⟨r, sp2, hn⟩
    have hr : r.isSome :=
      fresh_next_isSome (hn : (StrSplit.mk (some s) c).next = some (r, sp2))
    have hu : until_char s c = r := by
      unfold until_char
      rw [hn]
    rw [hu]
    exact hr

/-- Witness for `first_call_yields` on `"hello world"` with `'o'`. -/
theorem first_call_yields_witness :
    (some "hell".toList : Option (List Char)).isSome
    ∧ (until_char "hello world".toList 'o').isSome :=
  ⟨(first_call_yields "hello world".toList 'o').1 (some "hell".toList)
      (StrSplit.mk (some " world".toList) 'o') (by decide),
    (first_call_yields "hello world".toList 'o').2 "hello world".toList 'o'⟩

/-- Claim C5: when the delimiter does not occur in the text, the first
call yields the entire text and moves to `Done`, and the following call
signals end-of-sequence; in particular, splitting the empty text with
any non-empty literal delimiter yields exactly the empty item and then
ends. -/
theorem split_absent_delimiter (T pat : List Char) (h : ∀ n, ¬ occursAt pat T n) :
    ((StrSplit.new T pat).next = some (some T, StrSplit.mk none pat)
      ∧ (StrSplit.mk none pat).next = some (none, StrSplit.mk none pat))
    ∧ ∀ q : List Char, q ≠ [] →
        (StrSplit.new ([] : List Char) q).next = some (some [], StrSplit.mk none q)
        ∧ (StrSplit.mk none q).next = some (none, StrSplit.mk none q) := by
  have hfind : ∀ (T2 pat2 : List Char), (∀ n, ¬ occursAt pat2 T2 n) →
      Delimiter.find_next pat2 T2 = none := by
    intro T2 pat2 h2
    rcases h0 : strFind T2 pat2 with _ | n
    · show (strFind T2 pat2).map (fun start => (start, start + utf8Len pat2)) = none
      rw [h0]
      rfl
    · exact absurd (strFind_some T2 pat2 n h0).1 (h2 n)
  refine ⟨⟨next_of_find_none (hfind T pat h), next_of_done pat⟩, ?_⟩
  intro q hq
  have hocc : ∀ n, ¬ occursAt q ([] : List Char) n := by
    rintro n ⟨p, q2, heq, hlen⟩
    rcases List.append_eq_nil.mp heq.symm with ⟨h1, h2⟩
    rcases List.append_eq_nil.mp h1 with ⟨h3, h4⟩
    exact hq h4
  exact ⟨next_of_find_none (hfind [] q hocc), next_of_done q⟩

/-- Witness for `split_absent_delimiter`: `"x"` does not occur in
`"ab"`, so splitting yields `"ab"` whole. -/
theorem split_absent_delimiter_witness :
    (StrSplit.new "ab".toList "x".toList).next
      = some (some "ab".toList, StrSplit.mk none "x".toList) :=
  ((split_absent_delimiter "ab".toList "x".toList
    (strFind_none "ab".toList "x".toList (by decide))).1).1

/-- Claim C6: splitting `"a b c d "`, which ends exactly on the
delimiter, with the single-space matcher yields exactly
`"a"`, `"b"`, `"c"`, `"d"`, `""` — a trailing empty final item — and
then ends (more fuel collects nothing further). -/
theorem tail_trailing_empty :
    collectItems 6 (StrSplit.new "a b c d ".toList " ".toList)
      = some ["a".toList, "b".toList, "c".toList, "d".toList, []]
    ∧ collectItems 10 (StrSplit.new "a b c d ".toList " ".toList)
      = some ["a".toList, "b".toList, "c".toList, "d".toList, []] :=
  ⟨by decide, by decide⟩

/-- Claim C7: the literal matcher on a non-empty delimiter returns
`(offset, offset + delimiter_byte_length)` where `offset` is the first
byte offset at which the delimiter occurs, returns absence exactly when
the delimiter does not occur, and in particular returns absence
whenever the delimiter is longer than the remaining text. -/
theorem literal_find_next_spec (pat s : List Char) (hpat : pat ≠ []) :
    (∀ ds de, Delimiter.find_next pat s = some (ds, de) →
      de = ds + utf8Len pat ∧ occursAt pat s ds ∧ ∀ m, occursAt pat s m → ds ≤ m)
    ∧ (Delimiter.find_next pat s = none ↔ ∀ n, ¬ occursAt pat s n)
    ∧ (utf8Len s < utf8Len pat → Delimiter.find_next pat s = none) := by
  have hunf : Delimiter.find_next pat s
      = (strFind s pat).map (fun start => (start, start + utf8Len pat)) := rfl
  have hnone_iff : Delimiter.find_next pat s = none ↔ ∀ n, ¬ occursAt pat s n := by
    constructor
    · intro h n
      rw [hunf] at h
      rcases h0 : strFind s pat with _ | n2
      · exact strFind_none s pat h0 n
      · rw [h0] at h
        simp at h
    · intro h
      rw [hunf]
      rcases h0 : strFind s pat with _ | n2
      · rfl
      · exact absurd (strFind_some s pat n2 h0).1 (h n2)
  refine ⟨?_, hnone_iff, ?_⟩
  · intro ds de h
    rw [hunf] at h
    rcases Option.map_eq_some'.mp h with ⟨n, hn, hpair⟩
    have h1 : n = ds := (Prod.mk.injEq _ _ _ _ ▸ hpair).1
    have h2 : n + utf8Len pat = de := (Prod.mk.injEq _ _ _ _ ▸ hpair).2
    subst h1
    rcases strFind_some s pat n hn with ⟨hocc, hmin⟩
    exact ⟨by omega, hocc, hmin⟩
  · intro hlen
    apply hnone_iff.mpr
    rintro n ⟨p, q, heq, hplen⟩
    have h2 := congrArg utf8Len heq
    rw [utf8Len_append, utf8Len_append] at h2
    omega

/-- Witness for `literal_find_next_spec`: `"x"` occurs first in
`"axb"` at byte offset 1 (span `(1, 2)`). -/
theorem literal_find_next_spec_witness :
    occursAt "x".toList "axb".toList 1 :=
  (((literal_find_next_spec "x".toList "axb".toList (by decide)).1) 1 2 (by decide)).2.1

/-- Claim C8: the single-code-point matcher always returns a span whose
length is exactly the UTF-8 encoded length of the delimiter scalar and
whose start is a valid code-point boundary (the byte length of a
scalar-aligned prefix), and splitting with a `char` delimiter never
panics: every call to `next` returns. -/
theorem char_matcher_safe :
    (∀ (c : Char) (s : List Char) (ds de : Nat),
      Delimiter.find_next c s = some (ds, de) →
      de = ds + c.utf8Size ∧ ∃ p q, s = p ++ c :: q ∧ ds = utf8Len p)
    ∧ ∀ sp : StrSplit Char, (sp.next).isSome := by
  constructor
  · intro c s ds de h
    rcases charFindNext_some h with ⟨l, r, heq, hmem, hds, hde⟩
    exact ⟨hde, l, r, heq, hds⟩
  · intro sp
    rcases char_next_total sp with ⟨r, sp2, hn⟩
    rw [hn]
    rfl

/-- Witness for `char_matcher_safe` at the two-byte scalar `'é'`
inside `"aéb"`, matched with span `(1, 3)` of length 2. -/
theorem char_matcher_safe_witness :
    (3 = 1 + ('é').utf8Size ∧ ∃ p q, "aéb".toList = p ++ 'é' :: q ∧ 1 = utf8Len p)
    ∧ ((StrSplit.mk (some "x".toList) 'y').next).isSome :=
  ⟨char_matcher_safe.1 'é' "aéb".toList 1 3 (by decide),
    char_matcher_safe.2 (StrSplit.mk (some "x".toList) 'y')⟩

/-- Claim C9: for every matcher whose found spans are ordered
(`start ≤ end`, so successive matched spans are disjoint and ordered in
the original text), any complete run of the splitter admits the list of
matched delimiter texts as separators, and concatenating the yielded
items with those matched texts re-inserted between consecutive items
reconstructs the original text exactly. -/
theorem round_trip {D : Type} [Delimiter D] (d : D)
    (hord : ∀ v ds de, Delimiter.find_next d v = some (ds, de) → ds ≤ de) :
    ∀ (fuel : Nat) (v : List Char) (items : List (List Char)),
      collectItems fuel (StrSplit.new v d) = some items →
      ∃ seps, RunSeps d v items seps ∧ interleave items seps = v := by
  intro fuel
  induction fuel with
  | zero =>
    intro v items h
    simp [collectItems] at h
  | succ fuel ih =>
    intro v items h
    have h2 : collectItems (fuel + 1) (StrSplit.mk (some v) d) = some items := h
    rcases hf : Delimiter.find_next d v with _ | ⟨ds, de⟩
    · have hn := next_of_find_none (d := d) (v := v) hf
      simp only [collectItems] at h2
      rw [hn] at h2
      rcases Option.map_eq_some'.mp h2 with ⟨items2, hitems2, rfl⟩
      have hnil : items2 = [] := by
        cases fuel with
        | zero => simp [collectItems] at hitems2
        | succ fuel2 =>
          simp only [collectItems] at hitems2
          rw [next_of_done d] at hitems2
          exact (Option.some.inj hitems2).symm
      subst hnil
      exact ⟨[], RunSeps.last v hf, rfl⟩
    · rcases ht : takeBytes v ds with _ | item
      · have hn : (StrSplit.mk (some v) d).next = none := by
          simp [StrSplit.next, hf, ht]
        simp only [collectItems] at h2
        rw [hn] at h2
        simp at h2
      · rcases hd : dropBytes v de with _ | rest
        · have hn : (StrSplit.mk (some v) d).next = none := by
            simp [StrSplit.next, hf, ht, hd]
          simp only [collectItems] at h2
          rw [hn] at h2
          simp at h2
        · have hn := next_of_find_some hf ht hd
          simp only [collectItems] at h2
          rw [hn] at h2
          rcases Option.map_eq_some'.mp h2 with ⟨items2, hitems2, rfl⟩
          rcases ih rest items2 hitems2 with ⟨seps2, hrun, hjoin⟩
          rcases takeBytes_some v ds item ht with ⟨t, hvt, hlen_item⟩
          have hds_le := hord v ds de hf
          have hdrop_t : dropBytes t (de - ds) = some rest := by
            have hsplit := dropBytes_append_ge item t de (by omega)
            rw [← hvt, hd, hlen_item] at hsplit
            exact hsplit.symm
          rcases dropBytes_some t (de - ds) rest hdrop_t with ⟨sep, hts, hlen_sep⟩
          have hslice : sliceBytes v ds de = some sep := by
            have hdv : dropBytes v ds = some t := by
              rw [hvt, ← hlen_item]
              exact dropBytes_append item t
            unfold sliceBytes
            rw [hdv]
            show takeBytes t (de - ds) = some sep
            rw [hts, ← hlen_sep]
            exact takeBytes_append sep rest
          refine ⟨sep :: seps2,
            RunSeps.step v ds de item sep rest items2 seps2 hf ht hslice hd hrun, ?_⟩
          show item ++ sep ++ interleave items2 seps2 = v
          rw [hjoin, hvt, hts]
          simp [List.append_assoc]

/-- Witness for `round_trip`: splitting `"a b"` on the literal `" "`
yields `"a"`, `"b"` and re-inserting the matched separator
reconstructs `"a b"`. -/
theorem round_trip_witness :
    ∃ seps, RunSeps " ".toList "a b".toList ["a".toList, "b".toList] seps
      ∧ interleave ["a".toList, "b".toList] seps = "a b".toList :=
  round_trip " ".toList (strDelim_ord " ".toList) 3 "a b".toList
    ["a".toList, "b".toList] (by decide)
